import Mathlib

/-!
Verification of the pyo3-Levenshtein distance library.

The Rust source (src/lib.rs) provides:
 * `levenshtein_impl` — a generic two-rolling-row dynamic program computing
   the Levenshtein distance between two slices;
 * `levenshtein` — a wrapper that short-circuits equal strings and segments
   the inputs either into Unicode scalar values (chars) or grapheme clusters;
 * `levenshtein_batch` — a batch entry point that validates the worker count,
   and maps the single-pair function over the input pairs in input order.

Strings are modelled as `List Char` (a Rust `&str` is a sequence of Unicode
scalar values, and byte equality of UTF-8 strings coincides with equality of
their scalar-value sequences). Grapheme clusters are modelled as `List Char`
pieces, so a segmented string is a `List (List Char)`.
-/

namespace PyLev

universe u

variable {α : Type u}

/-- Reference Levenshtein distance, by structural recursion on list heads:
classic recurrence with unit costs for insertion, deletion and substitution
and cost zero for equal aligned elements. -/
def levRec [DecidableEq α] : List α → List α → Nat
  | [], t => t.length
  | s, [] => s.length
  | x :: xs, y :: ys =>
    min (min (levRec xs (y :: ys) + 1) (levRec (x :: xs) ys + 1))
      (levRec xs ys + if x = y then 0 else 1)

/-- A single edit step on a list: insertion, deletion or substitution of one
element at an arbitrary position. -/
inductive EditStep : List α → List α → Prop
  | insert (u v : List α) (x : α) : EditStep (u ++ v) (u ++ x :: v)
  | delete (u v : List α) (x : α) : EditStep (u ++ x :: v) (u ++ v)
  | subst (u v : List α) (x y : α) : EditStep (u ++ x :: v) (u ++ y :: v)

/-- A chain of exactly `n` edit steps transforming one list into another. -/
inductive EditChain : List α → List α → Nat → Prop
  | refl (s : List α) : EditChain s s 0
  | step {s t u : List α} {n : Nat} :
      EditStep s t → EditChain t u n → EditChain s u (n + 1)

theorem levRec_nil_left [DecidableEq α] (t : List α) :
    levRec ([] : List α) t = t.length := by
  simp [levRec]

theorem levRec_nil_right [DecidableEq α] (s : List α) :
    levRec s ([] : List α) = s.length := by
  cases s <;> simp [levRec]

theorem levRec_cons_cons [DecidableEq α] (x y : α) (xs ys : List α) :
    levRec (x :: xs) (y :: ys) =
      min (min (levRec xs (y :: ys) + 1) (levRec (x :: xs) ys + 1))
        (levRec xs ys + if x = y then 0 else 1) := by
  simp [levRec]

theorem levRec_self [DecidableEq α] (s : List α) : levRec s s = 0 := by
  induction s with
  | nil => simp [levRec]
  | cons x xs ih => rw [levRec_cons_cons]; simp [ih]

theorem EditStep.stepCons {s t : List α} (a : α) (h : EditStep s t) :
    EditStep (a :: s) (a :: t) := by
  cases h with
  | insert u v x => exact EditStep.insert (a :: u) v x
  | delete u v x => exact EditStep.delete (a :: u) v x
  | subst u v x y => exact EditStep.subst (a :: u) v x y

theorem EditStep.stepSymm {s t : List α} (h : EditStep s t) : EditStep t s := by
  cases h with
  | insert u v x => exact EditStep.delete u v x
  | delete u v x => exact EditStep.insert u v x
  | subst u v x y => exact EditStep.subst u v y x

theorem EditStep.stepReverse {s t : List α} (h : EditStep s t) :
    EditStep s.reverse t.reverse := by
  cases h with
  | insert u v x =>
    have h1 : (u ++ v).reverse = v.reverse ++ u.reverse := by simp
    have h2 : (u ++ x :: v).reverse = v.reverse ++ x :: u.reverse := by simp
    rw [h1, h2]; exact EditStep.insert v.reverse u.reverse x
  | delete u v x =>
    have h1 : (u ++ v).reverse = v.reverse ++ u.reverse := by simp
    have h2 : (u ++ x :: v).reverse = v.reverse ++ x :: u.reverse := by simp
    rw [h1, h2]; exact EditStep.delete v.reverse u.reverse x
  | subst u v x y =>
    have h2 : (u ++ x :: v).reverse = v.reverse ++ x :: u.reverse := by simp
    have h3 : (u ++ y :: v).reverse = v.reverse ++ y :: u.reverse := by simp
    rw [h2, h3]; exact EditStep.subst v.reverse u.reverse x y

theorem EditStep.length {s t : List α} (h : EditStep s t) :
    t.length = s.length + 1 ∨ s.length = t.length + 1 ∨ s.length = t.length := by
  cases h <;> simp <;> omega

theorem EditChain.chainCons {s t : List α} {n : Nat} (a : α) (h : EditChain s t n) :
    EditChain (a :: s) (a :: t) n := by
  induction h with
  | refl s => exact EditChain.refl _
  | step hst _ ih => exact EditChain.step (hst.stepCons a) ih

theorem EditChain.trans {s t u : List α} {m n : Nat}
    (h1 : EditChain s t m) (h2 : EditChain t u n) : EditChain s u (m + n) := by
  induction h1 with
  | refl s => simpa using h2
  | step hst _ ih =>
    have := EditChain.step hst (ih h2)
    simpa [Nat.add_right_comm] using this

theorem EditChain.snoc {s t u : List α} {n : Nat}
    (h1 : EditChain s t n) (h2 : EditStep t u) : EditChain s u (n + 1) :=
  h1.trans (EditChain.step h2 (EditChain.refl u))

theorem EditChain.chainSymm {s t : List α} {n : Nat} (h : EditChain s t n) :
    EditChain t s n := by
  induction h with
  | refl s => exact EditChain.refl _
  | step hst _ ih => exact ih.snoc hst.stepSymm

theorem EditChain.chainReverse {s t : List α} {n : Nat} (h : EditChain s t n) :
    EditChain s.reverse t.reverse n := by
  induction h with
  | refl s => exact EditChain.refl _
  | step hst _ ih => exact EditChain.step hst.stepReverse ih

theorem EditChain.length_le {s t : List α} {n : Nat} (h : EditChain s t n) :
    s.length ≤ t.length + n ∧ t.length ≤ s.length + n := by
  induction h with
  | refl s => simp
  | step hst _ ih =>
    rcases hst.length with h1 | h1 | h1 <;> omega

/-- Chains of pure insertions build any list from the empty list. -/
theorem editChain_nil_left (t : List α) : EditChain [] t t.length := by
  induction t with
  | nil => exact EditChain.refl _
  | cons y ys ih =>
    have h0 : EditStep ([] : List α) [y] := EditStep.insert [] [] y
    exact EditChain.step h0 (ih.chainCons y)

/-- Chains of pure deletions reduce any list to the empty list. -/
theorem editChain_nil_right (s : List α) : EditChain s [] s.length := by
  induction s with
  | nil => exact EditChain.refl _
  | cons x xs ih =>
    have h0 : EditStep (x :: xs) xs := EditStep.delete [] xs x
    exact EditChain.step h0 ih

theorem levRec_le_cons_right [DecidableEq α] (s : List α) (y : α) (t : List α) :
    levRec s (y :: t) ≤ levRec s t + 1 := by
  cases s with
  | nil => simp [levRec_nil_left]
  | cons a s' => rw [levRec_cons_cons]; omega

theorem levRec_cons_left_le [DecidableEq α] (v : List α) (t : List α) (x : α) :
    levRec (x :: v) t ≤ levRec v t + 1 := by
  cases t with
  | nil => simp [levRec_nil_right]
  | cons y t' => rw [levRec_cons_cons]; omega

theorem levRec_le_cons_left [DecidableEq α] (v : List α) (t : List α) (x : α) :
    levRec v t ≤ levRec (x :: v) t + 1 := by
  induction t generalizing v with
  | nil => simp [levRec_nil_right]; omega
  | cons y t' ih =>
    have h4 := levRec_le_cons_right v y t'
    have hih := ih v
    rw [levRec_cons_cons]
    omega

theorem levRec_subst_head_le [DecidableEq α] (v : List α) (t : List α) (x y : α) :
    levRec (x :: v) t ≤ levRec (y :: v) t + 1 := by
  induction t with
  | nil => simp [levRec_nil_right]
  | cons z t' ih =>
    rw [levRec_cons_cons, levRec_cons_cons]
    have hcx : (if x = z then 0 else 1) ≤ 1 := by split <;> omega
    omega

/-- If removing some middle part raises every distance from `P` to at most one
more than from `Q`, the same holds after prepending a common head. -/
theorem levRec_cons_lip [DecidableEq α] (a : α) {P Q : List α}
    (h : ∀ t, levRec P t ≤ levRec Q t + 1) (t : List α) :
    levRec (a :: P) t ≤ levRec (a :: Q) t + 1 := by
  induction t with
  | nil =>
    have h0 := h []
    simp only [levRec_nil_right, List.length_cons] at *
    omega
  | cons y t' ih =>
    rw [levRec_cons_cons, levRec_cons_cons]
    have h1 := h (y :: t')
    have h2 := h t'
    omega

theorem levRec_del_mid_le [DecidableEq α] (u v : List α) (x : α) (t : List α) :
    levRec (u ++ v) t ≤ levRec (u ++ x :: v) t + 1 := by
  induction u generalizing t with
  | nil => simpa using levRec_le_cons_left v t x
  | cons a u' ih => simpa using levRec_cons_lip a ih t

theorem levRec_ins_mid_le [DecidableEq α] (u v : List α) (x : α) (t : List α) :
    levRec (u ++ x :: v) t ≤ levRec (u ++ v) t + 1 := by
  induction u generalizing t with
  | nil => simpa using levRec_cons_left_le v t x
  | cons a u' ih => simpa using levRec_cons_lip a ih t

theorem levRec_subst_mid_le [DecidableEq α] (u v : List α) (x y : α) (t : List α) :
    levRec (u ++ x :: v) t ≤ levRec (u ++ y :: v) t + 1 := by
  induction u generalizing t with
  | nil => simpa using levRec_subst_head_le v t x y
  | cons a u' ih => simpa using levRec_cons_lip a ih t

/-- One edit step on the first argument changes the distance by at most one. -/
theorem levRec_step_mono [DecidableEq α] {s s' : List α} (h : EditStep s s')
    (t : List α) : levRec s t ≤ levRec s' t + 1 := by
  cases h with
  | insert u v x => exact levRec_del_mid_le u v x t
  | delete u v x => exact levRec_ins_mid_le u v x t
  | subst u v x y => exact levRec_subst_mid_le u v x y t

/-- Lower bound: any edit chain is at least as long as the recursive distance. -/
theorem editChain_levRec_le [DecidableEq α] {s t : List α} {n : Nat}
    (h : EditChain s t n) : levRec s t ≤ n := by
  induction h with
  | refl s => simp [levRec_self]
  | @step s1 t1 u1 n1 hst _ ih =>
    have h2 := levRec_step_mono hst u1
    omega

/-- Upper bound realization: there is an edit chain of exactly the recursive
distance's length. -/
theorem levRec_editChain [DecidableEq α] : ∀ s t : List α,
    EditChain s t (levRec s t) := by
  intro s t
  induction s, t using levRec.induct with
  | case1 t => rw [levRec_nil_left]; exact editChain_nil_left t
  | case2 s _ => rw [levRec_nil_right]; exact editChain_nil_right s
  | case3 x xs y ys ih1 ih2 ih3 =>
    rw [levRec_cons_cons]
    by_cases hxy : x = y
    · subst hxy
      have hif : (if x = x then 0 else 1) = 0 := if_pos rfl
      have hm : min (min (levRec xs (x :: ys) + 1) (levRec (x :: xs) ys + 1))
            (levRec xs ys + if x = x then 0 else 1) = levRec xs (x :: ys) + 1 ∨
          min (min (levRec xs (x :: ys) + 1) (levRec (x :: xs) ys + 1))
            (levRec xs ys + if x = x then 0 else 1) = levRec (x :: xs) ys + 1 ∨
          min (min (levRec xs (x :: ys) + 1) (levRec (x :: xs) ys + 1))
            (levRec xs ys + if x = x then 0 else 1) = levRec xs ys := by omega
      rcases hm with hm | hm | hm <;> rw [hm]
      · exact EditChain.step (EditStep.delete [] xs x) ih1
      · exact EditChain.step (EditStep.insert [] (x :: xs) x) (ih2.chainCons x)
      · exact ih3.chainCons x
    · have hif : (if x = y then 0 else 1) = 1 := if_neg hxy
      have hm : min (min (levRec xs (y :: ys) + 1) (levRec (x :: xs) ys + 1))
            (levRec xs ys + if x = y then 0 else 1) = levRec xs (y :: ys) + 1 ∨
          min (min (levRec xs (y :: ys) + 1) (levRec (x :: xs) ys + 1))
            (levRec xs ys + if x = y then 0 else 1) = levRec (x :: xs) ys + 1 ∨
          min (min (levRec xs (y :: ys) + 1) (levRec (x :: xs) ys + 1))
            (levRec xs ys + if x = y then 0 else 1) = levRec xs ys + 1 := by omega
      rcases hm with hm | hm | hm <;> rw [hm]
      · exact EditChain.step (EditStep.delete [] xs x) ih1
      · exact EditChain.step (EditStep.insert [] (x :: xs) y) (ih2.chainCons y)
      · exact EditChain.step (EditStep.subst [] xs x y) (ih3.chainCons y)

/-- The recursive distance is the least length of an edit chain. -/
theorem levRec_isLeast [DecidableEq α] (s t : List α) :
    IsLeast {n | EditChain s t n} (levRec s t) :=
  ⟨levRec_editChain s t, fun _ hn => editChain_levRec_le hn⟩

theorem levRec_symm [DecidableEq α] (s t : List α) : levRec s t = levRec t s := by
  apply le_antisymm
  · exact editChain_levRec_le (levRec_editChain t s).chainSymm
  · exact editChain_levRec_le (levRec_editChain s t).chainSymm

theorem levRec_reverse [DecidableEq α] (s t : List α) :
    levRec s t = levRec s.reverse t.reverse := by
  apply le_antisymm
  · have h := (levRec_editChain s.reverse t.reverse).chainReverse
    simp only [List.reverse_reverse] at h
    exact editChain_levRec_le h
  · exact editChain_levRec_le (levRec_editChain s t).chainReverse

theorem levRec_triangle [DecidableEq α] (s t u : List α) :
    levRec s u ≤ levRec s t + levRec t u :=
  editChain_levRec_le ((levRec_editChain s t).trans (levRec_editChain t u))

theorem levRec_le_max [DecidableEq α] (s t : List α) :
    levRec s t ≤ max s.length t.length := by
  induction s, t using levRec.induct with
  | case1 t => simp [levRec_nil_left]
  | case2 s _ => simp [levRec_nil_right]
  | case3 x xs y ys ih1 ih2 ih3 =>
    rw [levRec_cons_cons]
    have hc : (if x = y then 0 else 1) ≤ 1 := by split <;> omega
    simp only [List.length_cons] at *
    omega

theorem levRec_dist_le [DecidableEq α] (s t : List α) :
    Nat.dist s.length t.length ≤ levRec s t := by
  have h := (levRec_editChain s t).length_le
  have hd : Nat.dist s.length t.length =
      s.length - t.length + (t.length - s.length) := rfl
  omega

/-- Recurrence on the last elements of both sequences, derived from the
invariance of the distance under simultaneous reversal. -/
theorem levRec_snoc_snoc [DecidableEq α] (p q : List α) (x y : α) :
    levRec (p ++ [x]) (q ++ [y]) =
      min (min (levRec p (q ++ [y]) + 1) (levRec (p ++ [x]) q + 1))
        (levRec p q + if x = y then 0 else 1) := by
  have h1 := levRec_reverse (p ++ [x]) (q ++ [y])
  have h2 := levRec_reverse p (q ++ [y])
  have h3 := levRec_reverse (p ++ [x]) q
  have h4 := levRec_reverse p q
  simp only [List.reverse_append, List.reverse_singleton, List.singleton_append]
    at h1 h2 h3
  rw [h1, levRec_cons_cons, ← h2, ← h3, ← h4]

/-- Inner column loop of the rolling-row dynamic program (source lines 73-77).
Walking the shorter sequence `ys` in step with the tail of the previous row,
the arguments carry the previous row's entry at the preceding column, the
remaining entries of the previous row, and the current row's entry at the
preceding column; each produced entry is
min(prev[c] + 1, cur[c-1] + 1, prev[c-1] + cost). -/
def rowAux [DecidableEq α] (x : α) : List α → Nat → List Nat → Nat → List Nat
  | [], _, _, _ => []
  | _ :: _, _, [], _ => []
  | y :: ys, pPrev, p :: ps, cPrev =>
    let v := min (min (p + 1) (cPrev + 1)) (pPrev + if x = y then 0 else 1)
    v :: rowAux x ys p ps v

/-- Outer row loop of the dynamic program (source lines 71-79): one iteration
per element of the longer sequence, replacing the previous row by the current
row (the swap of `prev` and `cur`), with the row index starting at 1. -/
def dpLoop [DecidableEq α] (us2 : List α) : List α → List Nat → Nat → List Nat
  | [], prev, _ => prev
  | x :: xs, prev, r =>
    dpLoop us2 xs (r :: rowAux x us2 (prev.headD 0) prev.tail r) (r + 1)

/-- Body of `levenshtein_impl` after the relabelling swap: the early returns
for an empty row or column range (source lines 59-66), otherwise the rolling
dynamic program started from the row 0..cols-1, returning `prev[cols - 1]`
(source lines 68-81). -/
def levenshtein_impl_core [DecidableEq α] (us1 us2 : List α) : Nat :=
  let rows := us1.length + 1
  let cols := us2.length + 1
  if rows = 1 then cols - 1
  else if cols = 1 then rows - 1
  else (dpLoop us2 us1 (List.range cols) 1).getD (cols - 1) 0

/-- Generic Levenshtein implementation (source lines 52-82): relabel so the
longer sequence drives the outer loop, then run the rolling-row program. -/
def levenshtein_impl [DecidableEq α] (s1 s2 : List α) : Nat :=
  match (if s1.length < s2.length then (s2, s1) else (s1, s2)) with
  | (us1, us2) => levenshtein_impl_core us1 us2

/-- Row entries of the distance matrix at the columns strictly beyond the
prefix `done` of the second sequence, for first-sequence prefix `p`. -/
def rowAfter [DecidableEq α] (p done : List α) : List α → List Nat
  | [] => []
  | y :: ys => levRec p (done ++ [y]) :: rowAfter p (done ++ [y]) ys

/-- The full distance-matrix row for first-sequence prefix `p`. -/
def fullRow [DecidableEq α] (p t : List α) : List Nat :=
  levRec p [] :: rowAfter p [] t

theorem rowAfter_length [DecidableEq α] (p : List α) :
    ∀ (t done : List α), (rowAfter p done t).length = t.length := by
  intro t
  induction t with
  | nil => intro done; rfl
  | cons y ys ih => intro done; simp [rowAfter, ih]

theorem fullRow_length [DecidableEq α] (p t : List α) :
    (fullRow p t).length = t.length + 1 := by
  simp [fullRow, rowAfter_length]

/-- Correctness of the inner column loop: started from the row of `p` it
produces the row of `p ++ [x]`. -/
theorem rowAux_spec [DecidableEq α] (x : α) (p : List α) :
    ∀ (ys done : List α),
      rowAux x ys (levRec p done) (rowAfter p done ys) (levRec (p ++ [x]) done)
        = rowAfter (p ++ [x]) done ys := by
  intro ys
  induction ys with
  | nil => intro done; rfl
  | cons y ys ih =>
    intro done
    rw [rowAfter, rowAfter, rowAux]
    rw [← levRec_snoc_snoc p done x y]
    rw [ih (done ++ [y])]

/-- Correctness of the outer row loop: started from the row of `p` with row
index `p.length + 1` it produces the row of `p ++ xs`. -/
theorem dpLoop_spec [DecidableEq α] (t : List α) :
    ∀ (xs p : List α),
      dpLoop t xs (fullRow p t) (p.length + 1) = fullRow (p ++ xs) t := by
  intro xs
  induction xs with
  | nil => intro p; simp [dpLoop]
  | cons x xs ih =>
    intro p
    rw [dpLoop]
    have hhead : (fullRow p t).headD 0 = levRec p [] := rfl
    have htail : (fullRow p t).tail = rowAfter p [] t := rfl
    have hr : p.length + 1 = levRec (p ++ [x]) [] := by
      rw [levRec_nil_right]; simp
    rw [hhead, htail]
    have hrow : (p.length + 1) :: rowAux x t (levRec p []) (rowAfter p [] t)
          (p.length + 1) = fullRow (p ++ [x]) t := by
      simp only [fullRow, ← hr]
      have := rowAux_spec x p t []
      rw [← hr] at this
      rw [this]
    rw [hrow]
    have hlen : p.length + 1 + 1 = (p ++ [x]).length + 1 := by simp
    rw [hlen, ih (p ++ [x])]
    simp

theorem range_eq_fullRow_nil [DecidableEq α] :
    ∀ (t done : List α),
      rowAfter ([] : List α) done t = List.range' (done.length + 1) t.length := by
  intro t
  induction t with
  | nil => intro done; simp [rowAfter]
  | cons y ys ih =>
    intro done
    rw [rowAfter, List.length_cons, List.range'_succ]
    have h1 : levRec ([] : List α) (done ++ [y]) = done.length + 1 := by
      rw [levRec_nil_left]; simp
    rw [h1, ih (done ++ [y])]
    simp [Nat.add_right_comm]

theorem range_fullRow [DecidableEq α] (t : List α) :
    List.range (t.length + 1) = fullRow ([] : List α) t := by
  simp only [fullRow, levRec_nil_left, List.range_eq_range', List.range'_succ]
  rw [range_eq_fullRow_nil t []]
  simp

theorem rowAfter_getD [DecidableEq α] (p : List α) :
    ∀ (ys done : List α) (y : α),
      (rowAfter p done (y :: ys)).getD ys.length 0 = levRec p (done ++ y :: ys) := by
  intro ys
  induction ys with
  | nil => intro done y; simp [rowAfter]
  | cons z ys ih =>
    intro done y
    rw [rowAfter]
    simp only [List.length_cons, List.getD_cons_succ]
    rw [ih (done ++ [y]) z]
    simp

/-- The last entry of the full row for `p` is the distance from `p` to `t`. -/
theorem fullRow_getD [DecidableEq α] (p t : List α) :
    (fullRow p t).getD t.length 0 = levRec p t := by
  cases t with
  | nil => simp [fullRow, rowAfter, levRec_nil_right]
  | cons y ys =>
    simp only [fullRow, List.length_cons, List.getD_cons_succ]
    have := rowAfter_getD p ys [] y
    simpa using this

/-- The core dynamic program computes the recursive distance, for sequences in
either length order. -/
theorem levenshtein_impl_core_eq [DecidableEq α] (us1 us2 : List α) :
    levenshtein_impl_core us1 us2 = levRec us1 us2 := by
  cases us1 with
  | nil =>
    simp [levenshtein_impl_core, levRec_nil_left]
  | cons a as =>
    cases us2 with
    | nil => simp [levenshtein_impl_core, levRec_nil_right]
    | cons b bs =>
      simp only [levenshtein_impl_core]
      have h1 : (a :: as).length + 1 ≠ 1 := by simp
      have h2 : (b :: bs).length + 1 ≠ 1 := by simp
      simp only [h1, h2, if_false, if_neg]
      rw [range_fullRow (b :: bs)]
      have h3 := dpLoop_spec (b :: bs) (a :: as) []
      simp only [List.length_nil, Nat.zero_add, List.nil_append] at h3
      rw [h3]
      have h4 : (b :: bs).length + 1 - 1 = (b :: bs).length := by simp
      rw [h4, fullRow_getD]

/-- The generic implementation equals the recursive distance. -/
theorem levenshtein_impl_eq [DecidableEq α] (s1 s2 : List α) :
    levenshtein_impl s1 s2 = levRec s1 s2 := by
  by_cases h : s1.length < s2.length
  · simp only [levenshtein_impl, if_pos h]
    exact (levenshtein_impl_core_eq s2 s1).trans (levRec_symm s2 s1)
  · simp only [levenshtein_impl, if_neg h]
    exact levenshtein_impl_core_eq s1 s2

/-- Modelled from the spec: the grapheme-cluster segmenter used at source
lines 123-128 is UnicodeSegmentation::graphemes from the external crate
unicode-segmentation, which is not part of this repository. Following the
spec (section 4.1 and the glossary: one unit per user-perceived character, a
base letter plus combining marks, or a multi-part emoji sequence; no
normalization), this predicate marks a character that extends the cluster of
the preceding character: a combining mark (combining diacritical marks, or a
Devanagari dependent sign or virama) or a zero-width joiner. -/
def isCombiningMark (c : Char) : Bool :=
  (0x300 ≤ c.toNat && c.toNat ≤ 0x36F) ||
  (0x93E ≤ c.toNat && c.toNat ≤ 0x94D) ||
  c.toNat = 0x200D

/-- Modelled from the spec: a character joins the current cluster when it is
a combining mark or zero-width joiner, or when the preceding character was a
zero-width joiner (emoji sequences) or a virama (conjunct consonants). -/
def attachesToPrev (prev c : Char) : Bool :=
  isCombiningMark c || prev.toNat = 0x200D || prev.toNat = 0x94D

/-- Modelled from the spec: accumulate grapheme clusters left to right; the
current cluster is carried in reverse. -/
def graphemeGo : List Char → List Char → List (List Char)
  | cur, [] => [cur.reverse]
  | cur, c :: rest =>
    if attachesToPrev (cur.headD ' ') c then graphemeGo (c :: cur) rest
    else cur.reverse :: graphemeGo [c] rest

/-- Modelled from the spec: segmentation of a string into grapheme clusters
(deterministic, no normalization; canonically equivalent but differently
encoded inputs yield distinct unit sequences). -/
def graphemeClusters : List Char → List (List Char)
  | [] => []
  | c :: rest => graphemeGo [c] rest

/-- Single-pair entry point (source lines 117-135): byte-equal inputs
short-circuit to 0; otherwise the inputs are segmented into grapheme clusters
or Unicode scalar values and the generic implementation is applied. -/
def levenshtein (s1 s2 : List Char) (grapheme_segmentation : Bool) : Nat :=
  if s1 = s2 then 0
  else if grapheme_segmentation then
    levenshtein_impl (graphemeClusters s1) (graphemeClusters s2)
  else
    levenshtein_impl s1 s2

/-- Comparison definition following the spec's words for claim C2: the same
computation without the byte-equality short-circuit, segmenting always. -/
def levenshteinNoShortcut (s1 s2 : List Char) (grapheme_segmentation : Bool) : Nat :=
  if grapheme_segmentation then
    levenshtein_impl (graphemeClusters s1) (graphemeClusters s2)
  else
    levenshtein_impl s1 s2

/-- Batch entry point (source lines 177-217): empty input returns an empty
vector before any validation; a supplied worker count of zero is rejected
with a ValueError whose message is "num_threads must be at least 1";
otherwise each pair is mapped through `levenshtein` with the results
collected in input order (rayon's indexed parallel collect assembles by
index, so the output order matches the input order regardless of completion
order). -/
def levenshtein_batch (pairs : List (List Char × List Char))
    (num_threads : Option Nat) (grapheme_segmentation : Bool) :
    Except String (List Nat) :=
  if pairs = [] then Except.ok []
  else
    match num_threads with
    | some 0 => Except.error "num_threads must be at least 1"
    | _ => Except.ok (pairs.map (fun p => levenshtein p.1 p.2 grapheme_segmentation))

/-- Whether the batch call reaches the computation phase and thus obtains a
worker pool (the cached pool from get_or_create_pool for an explicit worker
count, or rayon's global pool otherwise, source lines 197-216); the
empty-input and zero-worker early returns at lines 184-193 do not. -/
def levenshtein_batch_poolObtained (pairs : List (List Char × List Char))
    (num_threads : Option Nat) : Bool :=
  if pairs = [] then false
  else
    match num_threads with
    | some 0 => false
    | _ => true

/-- Comparable-unit sequence of a string under a segmentation mode: grapheme
clusters in grapheme mode, Unicode scalar values (as singleton clusters, so
that both modes share one unit type) in code-point mode. -/
def units (grapheme_segmentation : Bool) (s : List Char) : List (List Char) :=
  if grapheme_segmentation then graphemeClusters s
  else s.map (fun c => [c])

theorem levRec_map [DecidableEq α] {β : Type u} [DecidableEq β] (f : α → β)
    (hf : ∀ a b, f a = f b → a = b) (s t : List α) :
    levRec (s.map f) (t.map f) = levRec s t := by
  induction s, t using levRec.induct with
  | case1 t => simp [levRec_nil_left]
  | case2 s _ => simp [levRec_nil_right]
  | case3 x xs y ys ih1 ih2 ih3 =>
    simp only [List.map_cons]
    rw [levRec_cons_cons, levRec_cons_cons]
    have hcost : (if f x = f y then 0 else 1) = (if x = y then 0 else 1) := by
      by_cases h : x = y
      · rw [if_pos h, if_pos (by rw [h])]
      · rw [if_neg h, if_neg (fun hc => h (hf x y hc))]
    rw [← List.map_cons f y ys, ← List.map_cons f x xs] at *
    rw [ih1, ih2, ih3, hcost]

theorem levenshtein_eq_codepoint (s1 s2 : List Char) :
    levenshtein s1 s2 false = levRec s1 s2 := by
  by_cases h : s1 = s2
  · subst h; simp [levenshtein, levRec_self]
  · simp [levenshtein, h, levenshtein_impl_eq]

theorem levenshtein_eq_grapheme (s1 s2 : List Char) :
    levenshtein s1 s2 true = levRec (graphemeClusters s1) (graphemeClusters s2) := by
  by_cases h : s1 = s2
  · subst h; simp [levenshtein, levRec_self]
  · simp [levenshtein, h, levenshtein_impl_eq]

theorem levenshtein_eq_units (s1 s2 : List Char) (m : Bool) :
    levenshtein s1 s2 m = levRec (units m s1) (units m s2) := by
  cases m
  · rw [levenshtein_eq_codepoint]
    simp only [units, Bool.false_eq_true, if_false]
    rw [levRec_map (fun c => [c]) (fun a b h => by simpa using h)]
  · rw [levenshtein_eq_grapheme]
    simp [units]

theorem graphemeGo_ne_nil (rest : List Char) :
    ∀ cur : List Char, graphemeGo cur rest ≠ [] := by
  induction rest with
  | nil => intro cur; simp [graphemeGo]
  | cons c rest ih =>
    intro cur
    rw [graphemeGo]
    split
    · exact ih (c :: cur)
    · simp

theorem units_eq_nil_iff (m : Bool) (s : List Char) :
    units m s = [] ↔ s = [] := by
  cases m
  · simp [units]
  · simp only [units, if_pos rfl]
    cases s with
    | nil => simp [graphemeClusters]
    | cons c rest =>
      simp only [graphemeClusters]
      constructor
      · intro h; exact absurd h (graphemeGo_ne_nil rest [c])
      · intro h; cases h

theorem getD_map_batch (f : List Char × List Char → Nat) :
    ∀ (l : List (List Char × List Char)) (i : Nat), i < l.length →
      (l.map f).getD i 0 = f (l.getD i ([], [])) := by
  intro l
  induction l with
  | nil => intro i hi; simp at hi
  | cons p ps ih =>
    intro i hi
    cases i with
    | zero => simp
    | succ j =>
      simp only [List.map_cons, List.getD_cons_succ]
      exact ih j (by simpa using hi)

theorem dpLoop_range_length [DecidableEq α] (t s : List α) :
    (dpLoop t s (List.range (t.length + 1)) 1).length = t.length + 1 := by
  rw [range_fullRow t]
  have h := dpLoop_spec t s []
  simp only [List.length_nil, Nat.zero_add, List.nil_append] at h
  rw [h, fullRow_length]

/-- C1: for every pair of strings and every segmentation mode,
`levenshtein s1 s2 mode` is the minimum number of single-unit insertions,
deletions, and substitutions transforming the unit sequence of s1 into the
unit sequence of s2 (units are Unicode scalar values in code-point mode and
grapheme clusters in grapheme mode; each edit costs 1 and aligned equal
units cost 0, i.e. need no edit step). -/
theorem claim_levenshtein_min_edit_distance (s1 s2 : List Char) (m : Bool) :
    IsLeast {n | EditChain (units m s1) (units m s2) n} (levenshtein s1 s2 m) := by
  rw [levenshtein_eq_units]
  exact levRec_isLeast _ _

/-- C2: for every string s and every mode, `levenshtein s s mode = 0`
(including the empty string), and the byte-equality short-circuit does not
change any observable result: the wrapper always agrees with the variant
that segments and runs the distance engine unconditionally. -/
theorem claim_levenshtein_identity (s : List Char) (m : Bool) :
    levenshtein s s m = 0 ∧
    ∀ t1 t2 : List Char, levenshtein t1 t2 m = levenshteinNoShortcut t1 t2 m := by
  constructor
  · simp [levenshtein]
  · intro t1 t2
    by_cases h : t1 = t2
    · subst h
      cases m <;>
        simp [levenshtein, levenshteinNoShortcut, levenshtein_impl_eq, levRec_self]
    · simp [levenshtein, levenshteinNoShortcut, h]

/-- C3: for every two strings and every segmentation mode, the distance is
symmetric. -/
theorem claim_levenshtein_symm (a b : List Char) (m : Bool) :
    levenshtein a b m = levenshtein b a m := by
  rw [levenshtein_eq_units, levenshtein_eq_units]
  exact levRec_symm _ _

/-- C4: for every three strings and every segmentation mode, the distance
satisfies the triangle inequality. -/
theorem claim_levenshtein_triangle (a b c : List Char) (m : Bool) :
    levenshtein a c m ≤ levenshtein a b m + levenshtein b c m := by
  simp only [levenshtein_eq_units]
  exact levRec_triangle _ _ _

/-- C5: for every two strings and every segmentation mode, the distance is
bounded below by the absolute difference and above by the maximum of the
unit-sequence lengths under the active mode; if either unit sequence is
empty the result is the length of the other. -/
theorem claim_levenshtein_bounds (a b : List Char) (m : Bool) :
    Nat.dist (units m a).length (units m b).length ≤ levenshtein a b m ∧
    levenshtein a b m ≤ max (units m a).length (units m b).length ∧
    (units m a = [] → levenshtein a b m = (units m b).length) ∧
    (units m b = [] → levenshtein a b m = (units m a).length) := by
  rw [levenshtein_eq_units a b m]
  refine ⟨levRec_dist_le _ _, levRec_le_max _ _, fun h => ?_, fun h => ?_⟩
  · rw [h, levRec_nil_left]
  · rw [h, levRec_nil_right]

/-- Witness for C5 at a = "", b = "world", code-point mode: the empty-side
hypothesis is discharged concretely. -/
theorem claim_levenshtein_bounds_witness :
    units false ([] : List Char) = [] ∧
    levenshtein [] ['w', 'o', 'r', 'l', 'd'] false =
      (units false ['w', 'o', 'r', 'l', 'd']).length :=
  ⟨by decide, (claim_levenshtein_bounds [] ['w', 'o', 'r', 'l', 'd'] false).2.2.1
    (by decide)⟩

/-- C6: for every non-empty list of pairs, every mode and every valid worker
count (default included), the batch call succeeds with one result per input
pair, and the result at each position equals the single-pair computation on
that pair with the same mode (the model assembles by index, as rayon's
indexed parallel collect does, so the order of completion is immaterial). -/
theorem claim_levenshtein_batch_consistent (pairs : List (List Char × List Char))
    (nt : Option Nat) (m : Bool) (hne : pairs ≠ [])
    (hnt : ∀ k, nt = some k → 1 ≤ k) :
    ∃ rs : List Nat, levenshtein_batch pairs nt m = Except.ok rs ∧
      rs.length = pairs.length ∧
      ∀ i, i < pairs.length →
        rs.getD i 0 =
          levenshtein (pairs.getD i ([], [])).1 (pairs.getD i ([], [])).2 m := by
  refine ⟨pairs.map (fun p => levenshtein p.1 p.2 m), ?_, by simp, ?_⟩
  · simp only [levenshtein_batch, if_neg hne]
    rcases nt with _ | k
    · rfl
    · cases k with
      | zero => exact absurd (hnt 0 rfl) (by omega)
      | succ j => rfl
  · intro i hi
    exact getD_map_batch (fun p => levenshtein p.1 p.2 m) pairs i hi

/-- Witness for C6 on one concrete pair with worker count 2. -/
theorem claim_levenshtein_batch_consistent_witness :
    (([(['a'], ['b', 'c'])] : List (List Char × List Char)) ≠ []) ∧
    ∃ rs : List Nat,
      levenshtein_batch [(['a'], ['b', 'c'])] (some 2) false = Except.ok rs ∧
      rs.length = ([(['a'], ['b', 'c'])] : List (List Char × List Char)).length ∧
      ∀ i, i < ([(['a'], ['b', 'c'])] : List (List Char × List Char)).length →
        rs.getD i 0 =
          levenshtein (([(['a'], ['b', 'c'])]
              : List (List Char × List Char)).getD i ([], [])).1
            (([(['a'], ['b', 'c'])]
              : List (List Char × List Char)).getD i ([], [])).2 false :=
  ⟨by decide, claim_levenshtein_batch_consistent [(['a'], ['b', 'c'])] (some 2)
    false (by decide) (fun k h => by injection h with h; omega)⟩

/-- C7: for every non-empty list of pairs and every mode, a supplied worker
count of 0 fails with the invalid-argument error whose message states the
minimum is 1, and the computation phase (and thus any pool lookup) is never
reached. -/
theorem claim_levenshtein_batch_zero_threads
    (pairs : List (List Char × List Char)) (m : Bool) (hne : pairs ≠ []) :
    levenshtein_batch pairs (some 0) m =
      Except.error "num_threads must be at least 1" ∧
    levenshtein_batch_poolObtained pairs (some 0) = false := by
  constructor
  · simp only [levenshtein_batch, if_neg hne]
  · simp only [levenshtein_batch_poolObtained, if_neg hne]

/-- Witness for C7 on one concrete non-empty batch. -/
theorem claim_levenshtein_batch_zero_threads_witness :
    (([(['t'], ['t'])] : List (List Char × List Char)) ≠ []) ∧
    levenshtein_batch [(['t'], ['t'])] (some 0) true =
      Except.error "num_threads must be at least 1" ∧
    levenshtein_batch_poolObtained [(['t'], ['t'])] (some 0) = false :=
  ⟨by decide, claim_levenshtein_batch_zero_threads [(['t'], ['t'])] true
    (by decide)⟩

/-- C8: for every mode and every optional worker count, worker count 0
included, the batch call on an empty list succeeds with an empty list and
never reaches the computation phase, so no pool is looked up or built. -/
theorem claim_levenshtein_batch_empty (nt : Option Nat) (m : Bool) :
    levenshtein_batch [] nt m = Except.ok [] ∧
    levenshtein_batch_poolObtained [] nt = false := by
  constructor
  · simp [levenshtein_batch]
  · simp [levenshtein_batch_poolObtained]

/-- C9: the single-pair computation is total: for every pair of strings and
both segmentation modes it equals the everywhere-defined recursive distance
on the unit sequences (hence terminates with a natural number, necessarily
non-negative), and for any two unit sequences the rolling dynamic program
keeps rows of full width cols, so the final access at index cols - 1 is in
bounds. -/
theorem claim_levenshtein_total (s1 s2 : List Char) (m : Bool) :
    levenshtein s1 s2 m = levRec (units m s1) (units m s2) ∧
    ∀ us1 us2 : List (List Char),
      (dpLoop us2 us1 (List.range (us2.length + 1)) 1).length = us2.length + 1 ∧
      us2.length + 1 - 1 <
        (dpLoop us2 us1 (List.range (us2.length + 1)) 1).length := by
  refine ⟨levenshtein_eq_units s1 s2 m, fun us1 us2 => ?_⟩
  have h := dpLoop_range_length us2 us1
  exact ⟨h, by omega⟩

/-- C10: no Unicode normalization: the precomposed letter U+00E4 and the
canonically equivalent pair U+0061 U+0308 segment into distinct unit
sequences and have nonzero distance under both modes. -/
theorem claim_levenshtein_no_normalization :
    levenshtein ['\u00E4'] ['a', '\u0308'] false ≠ 0 ∧
    levenshtein ['\u00E4'] ['a', '\u0308'] true ≠ 0 ∧
    units false ['\u00E4'] ≠ units false ['a', '\u0308'] ∧
    units true ['\u00E4'] ≠ units true ['a', '\u0308'] := by
  refine ⟨by decide, by decide, by decide, by decide⟩

end PyLev
